import Mathlib

/-!
Shallow embedding of the prolation-canon optimizer
(`src/optimizer/optimal_canon.py`): the pitch/scale model, diatonic
scale-degree transposition, canon-voice construction (rest prefix and
repeated, prolated melody), the consonance judge's scoring aggregation,
entry-delay grid generation, and the best-configuration search, together
with theorems settling the specification's claims about them.

Conventions: Python `Fraction` durations and offsets become `ℚ`; the float
weights of the rubric become `ℚ` (exact arithmetic over the same numerals);
Python `int` becomes `ℤ` (or `ℕ` where the source only ever holds
non-negative values); an abjad `NamedPitch` becomes a chromatic pitch-class
number together with an integer octave.
-/

namespace Canons

/-- A named pitch: a chromatic pitch-class number (0–11) plus an octave in
abjad's convention, where the unmarked octave is 3 (`c` = C3), each
apostrophe raises one octave (`c'` = C4) and each comma lowers one
(`c,` = C2). -/
structure NPitch where
  pc : ℕ
  octave : ℤ
deriving DecidableEq, Repr

/-- Absolute semitone number of a pitch, matching abjad's
`NamedPitch.number()` where C4 (`c'`, octave 4) is 0. -/
def NPitch.number (p : NPitch) : ℤ :=
  (p.pc : ℤ) + 12 * (p.octave - 4)

/-- Major-scale semitone offsets (`scale_patterns["major"]` in
`CanonGenerator._get_scale_pitches`). -/
def scale_pattern_major : List ℕ := [0, 2, 4, 5, 7, 9, 11]

/-- Minor-scale semitone offsets (`scale_patterns["minor"]`). -/
def scale_pattern_minor : List ℕ := [0, 2, 3, 5, 7, 8, 10]

/-- Embedding of `CanonGenerator._get_scale_pitches`, taking the tonic as
its already-parsed pitch-class number.  An unrecognized mode string falls
back to the major pattern (`if mode not in scale_patterns: mode = "major"`).
The second component models the warning-level output the method emits while
doing so: the source prints nothing there, so the trace is always empty. -/
def get_scale_pitches (tonicNumber : ℕ) (mode : String) : List ℕ × List String :=
  let pattern :=
    if mode = "major" then scale_pattern_major
    else if mode = "minor" then scale_pattern_minor
    else scale_pattern_major
  (pattern.map (fun i => (tonicNumber + i) % 12), [])

/-- The C-major scale used throughout the examples (`key="c major"`). -/
def cMajorScale : List ℕ := (get_scale_pitches 0 "major").1

/-- Circular semitone distance key used by the nearest-scale-pitch fallback
of `transpose_pitch_by_scale_degrees`:
`min(abs(pc - cur), abs(pc - cur + 12), abs(pc - cur - 12))`. -/
def circularKey (cur scalePc : ℤ) : ℤ :=
  min (min |scalePc - cur| |scalePc - cur + 12|) |scalePc - cur - 12|

/-- Python's `min(iterable, key=...)`: the first element attaining the
minimal key (later elements replace the best only under a strictly smaller
key). -/
def minByKey {α : Type} (key : α → ℤ) : List α → Option α
  | [] => none
  | x :: xs => some (xs.foldl (fun b y => if key y < key b then y else b) x)

/-- Scale index of a pitch class, as computed in
`transpose_pitch_by_scale_degrees`: the index of the pitch class in the
scale when present, otherwise the index of the closest scale pitch class by
circular semitone distance (Python `min` keeps the earliest on ties). -/
def currentScaleIndex (scale : List ℕ) (pc : ℕ) : ℕ :=
  if pc ∈ scale then scale.indexOf pc
  else
    let closest := (minByKey (fun q => circularKey (pc : ℤ) (q : ℤ)) scale).getD 0
    scale.indexOf closest

/-- Octave arithmetic of `transpose_pitch_by_scale_degrees`, translated from
the apostrophe/comma string manipulation: `apostrophes = max(0, octave - 3)`
and `commas = max(0, 3 - octave)` recover the counts the source reads off
`str(pitch)`, and the three branches rebuild the new octave from
`max(0, apostrophes + adj)` resp. `max(0, commas - adj)`. -/
def adjustOctave (octave adj : ℤ) : ℤ :=
  let apostrophes := max 0 (octave - 3)
  let commas := max 0 (3 - octave)
  if 0 < apostrophes then 3 + max 0 (apostrophes + adj)
  else if 0 < commas then 3 - max 0 (commas - adj)
  else
    if 0 < adj then 3 + adj
    else if adj < 0 then 3 + adj
    else 3

/-- Embedding of `CanonGenerator.transpose_pitch_by_scale_degrees`:
`new_scale_index = (current_scale_index - scale_degrees) % len(scale)`, the
new pitch class is `scale[new_scale_index]`, and the octave is decremented
by one exactly when `scale_degrees > 0` and the modular subtraction wrapped
upward (`new_scale_index > current_scale_index`).  The source's
`try/except` wrapper only guards abjad library calls and is dropped. -/
def transpose_pitch_by_scale_degrees (scale : List ℕ) (pitch : NPitch)
    (scaleDegrees : ℤ) : NPitch :=
  let idx := currentScaleIndex scale pitch.pc
  let newIdx := (((idx : ℤ) - scaleDegrees) % (scale.length : ℤ)).toNat
  let newPc := scale.getD newIdx 0
  let adj : ℤ := if 0 < scaleDegrees ∧ idx < newIdx then -1 else 0
  ⟨newPc, adjustOctave pitch.octave adj⟩

theorem adjustOctave_neg_one (octave : ℤ) : adjustOctave octave (-1) = octave - 1 := by
  unfold adjustOctave
  simp only [max_def]
  split_ifs <;> omega

theorem adjustOctave_zero (octave : ℤ) : adjustOctave octave 0 = octave := by
  unfold adjustOctave
  simp only [max_def]
  split_ifs <;> omega

/-- C5: transposing C4 down 2 scale degrees in C major yields A3 (scale
index moves 0 → 5, and because the degree count is positive and the new
index exceeds the old one the register drops by exactly 1), and in general
the register changes by exactly −1 under that wrap condition and is
unchanged in every other case. -/
theorem transpose_c4_down_two_is_a3 :
    transpose_pitch_by_scale_degrees cMajorScale ⟨0, 4⟩ 2 = ⟨9, 3⟩ ∧
    ∀ (scale : List ℕ) (pitch : NPitch) (scaleDegrees : ℤ),
      (transpose_pitch_by_scale_degrees scale pitch scaleDegrees).octave =
        (if 0 < scaleDegrees ∧
            currentScaleIndex scale pitch.pc <
              (((currentScaleIndex scale pitch.pc : ℤ) - scaleDegrees) %
                (scale.length : ℤ)).toNat
          then pitch.octave - 1 else pitch.octave) := by
  constructor
  · decide
  · intro scale pitch scaleDegrees
    unfold transpose_pitch_by_scale_degrees
    dsimp only
    split_ifs with h
    · rw [adjustOctave_neg_one]
    · rw [adjustOctave_zero]

theorem transpose_pc_of_mem (scale : List ℕ) (pitch : NPitch) (d : ℤ)
    (hmem : pitch.pc ∈ scale) :
    (transpose_pitch_by_scale_degrees scale pitch d).pc =
      scale.getD ((((scale.indexOf pitch.pc : ℤ) - d) % (scale.length : ℤ)).toNat) 0 := by
  unfold transpose_pitch_by_scale_degrees currentScaleIndex
  rw [if_pos hmem]

/-- C6: for a pitch whose pitch class lies in a 7-element duplicate-free
scale and any degree count with absolute value at most 6, transposing by
`d` scale degrees and then by `-d` reproduces the original pitch class. -/
theorem transpose_round_trip (scale : List ℕ) (pitch : NPitch) (d : ℤ)
    (hnd : scale.Nodup) (hlen : scale.length = 7) (hmem : pitch.pc ∈ scale)
    (hd : d.natAbs ≤ 6) :
    (transpose_pitch_by_scale_degrees scale
      (transpose_pitch_by_scale_degrees scale pitch d) (-d)).pc = pitch.pc := by
  have hidx_lt : scale.indexOf pitch.pc < scale.length :=
    List.indexOf_lt_length.2 hmem
  have hlenz : (scale.length : ℤ) = 7 := by rw [hlen]; norm_num
  have h7 : (0 : ℤ) < (scale.length : ℤ) := by rw [hlenz]; norm_num
  have h1 := transpose_pc_of_mem scale pitch d hmem
  set j1 := (((scale.indexOf pitch.pc : ℤ) - d) % (scale.length : ℤ)).toNat with hj1
  have hj1z : (j1 : ℤ) = ((scale.indexOf pitch.pc : ℤ) - d) % (scale.length : ℤ) := by
    rw [hj1]
    exact Int.toNat_of_nonneg (Int.emod_nonneg _ (by omega))
  have hj1lt : j1 < scale.length := by
    have := Int.emod_lt_of_pos ((scale.indexOf pitch.pc : ℤ) - d) h7
    omega
  have hgd1 : scale.getD j1 0 = scale[j1] := List.getD_eq_getElem scale 0 hj1lt
  have hmem1 : scale[j1] ∈ scale := List.getElem_mem hj1lt
  have h2 := transpose_pc_of_mem scale (transpose_pitch_by_scale_degrees scale pitch d)
    (-d) (by rw [h1, hgd1]; exact hmem1)
  rw [h2, h1, hgd1, List.indexOf_getElem hnd]
  have hj2 : (((j1 : ℤ) - -d) % (scale.length : ℤ)).toNat = scale.indexOf pitch.pc := by
    rw [hlenz] at hj1z ⊢
    omega
  rw [hj2, List.getD_eq_getElem scale 0 hidx_lt, List.getElem_indexOf hidx_lt]

/-- Witness for C6 at a concrete input: C4 in the C-major scale, two
degrees down and back up. -/
theorem transpose_round_trip_witness :
    cMajorScale.Nodup ∧ cMajorScale.length = 7 ∧ (0 : ℕ) ∈ cMajorScale ∧
      (2 : ℤ).natAbs ≤ 6 ∧
      (transpose_pitch_by_scale_degrees cMajorScale
        (transpose_pitch_by_scale_degrees cMajorScale ⟨0, 4⟩ 2) (-2)).pc = (0 : ℕ) :=
  ⟨by decide, by decide, by decide, by decide,
    transpose_round_trip cMajorScale ⟨0, 4⟩ 2 (by decide) (by decide) (by decide) (by decide)⟩

/-- One leaf of a staff: a pitched note or a rest, with a duration in
whole-note units. -/
inductive Leaf where
  | note (pitch : NPitch) (dur : ℚ)
  | rest (dur : ℚ)
deriving DecidableEq, Repr

/-- Written duration of a leaf. -/
def Leaf.dur : Leaf → ℚ
  | .note _ d => d
  | .rest d => d

/-- The `isinstance(leaf, abjad.Note)` test. -/
def Leaf.isNote : Leaf → Bool
  | .note _ _ => true
  | .rest _ => false

/-- A melody note as carried around by the generator (pitch, written
duration). -/
structure VNote where
  pitch : NPitch
  dur : ℚ
deriving DecidableEq, Repr

/-- Embedding of `CanonGenerator.extract_melody_notes`: keep exactly the
leaves that are notes. -/
def extract_melody_notes (staff : List Leaf) : List VNote :=
  staff.filterMap fun l =>
    match l with
    | .note p d => some ⟨p, d⟩
    | .rest _ => none

/-- Embedding of `CanonGenerator.copy_melody_notes`: fresh
`abjad.Note(pitch, duration)` copies of the extracted melody notes. -/
def copy_melody_notes (staff : List Leaf) : List VNote :=
  (extract_melody_notes staff).map fun n => ⟨n.pitch, n.dur⟩

/-- The rest chunk the entry-delay loop of `create_canon_voice` emits for a
given remaining delay: `r1` if at least a whole note remains, else `r2`,
else `r4`, else unconditionally `r8`. -/
def restChunk (r : ℚ) : ℚ :=
  if 1 ≤ r then 1 else if (1 : ℚ)/2 ≤ r then 1/2 else if (1 : ℚ)/4 ≤ r then 1/4 else 1/8

theorem restChunk_ge (r : ℚ) : 1/8 ≤ restChunk r := by
  unfold restChunk; split_ifs <;> norm_num

/-- The `while remaining_delay > 0` rest loop of `create_canon_voice`:
returns the emitted rest durations together with the final value of
`remaining_delay` (which the source lets go negative on the last `r8`
branch). -/
def restLoop (r : ℚ) : List ℚ × ℚ :=
  if h : 0 < r then
    let c := restChunk r
    let p := restLoop (r - c)
    (c :: p.1, p.2)
  else ([], r)
termination_by (⌈8 * r⌉).toNat
decreasing_by
  have hc := restChunk_ge r
  have h2 : ⌈(8 * (r - restChunk r) : ℚ)⌉ ≤ ⌈(8 * r : ℚ)⌉ - 1 := by
    calc ⌈(8 * (r - restChunk r) : ℚ)⌉ ≤ ⌈(8 * r - 1 : ℚ)⌉ := by
          exact Int.ceil_le_ceil (by linarith)
      _ = ⌈(8 * r : ℚ)⌉ - 1 := by rw [Int.ceil_sub_one]
  have h3 : (0 : ℤ) < ⌈(8 * r : ℚ)⌉ := Int.ceil_pos.2 (by linarith)
  omega

theorem restLoop_sum (r : ℚ) : ((restLoop r).1).sum = r - (restLoop r).2 := by
  induction r using restLoop.induct with
  | case1 r h c ih =>
    rw [restLoop]
    simp only [dif_pos h, List.sum_cons]
    rw [show c = restChunk r from rfl] at ih
    rw [ih]
    ring
  | case2 r h =>
    rw [restLoop]
    simp [dif_neg h]

theorem restChunk_sub_lb (r : ℚ) (h : 0 < r) : -(1/8) < r - restChunk r := by
  unfold restChunk; split_ifs <;> linarith

theorem restLoop_final (r : ℚ) : -(1/8) < r → (restLoop r).2 ≤ 0 ∧ -(1/8) < (restLoop r).2 := by
  induction r using restLoop.induct with
  | case1 r h c ih =>
    intro _
    rw [restLoop]
    simp only [dif_pos h]
    rw [show c = restChunk r from rfl] at ih
    exact ih (restChunk_sub_lb r h)
  | case2 r h =>
    intro hr
    rw [restLoop]
    simp only [dif_neg h]
    exact ⟨by linarith [not_lt.1 h], hr⟩

theorem restLoop_eighths (k : ℕ) : (restLoop ((k : ℚ) / 8)).2 = 0 := by
  induction k using Nat.strong_induction_on with
  | _ k ih =>
    rcases Nat.eq_zero_or_pos k with hk | hk
    · subst hk
      rw [restLoop]
      norm_num
    · have hr : 0 < (k : ℚ) / 8 := by positivity
      rw [restLoop]
      simp only [dif_pos hr]
      by_cases h1 : (1 : ℚ) ≤ (k : ℚ) / 8
      · have hk8 : 8 ≤ k := by
          have : (8 : ℚ) ≤ (k : ℚ) := by linarith
          exact_mod_cast this
        have he : (k : ℚ) / 8 - restChunk ((k : ℚ) / 8) = ((k - 8 : ℕ) : ℚ) / 8 := by
          unfold restChunk
          rw [if_pos h1, Nat.cast_sub hk8]
          ring
        rw [he]
        exact ih (k - 8) (by omega)
      · by_cases h2 : (1 : ℚ) / 2 ≤ (k : ℚ) / 8
        · have hk4 : 4 ≤ k := by
            have : (4 : ℚ) ≤ (k : ℚ) := by linarith
            exact_mod_cast this
          have he : (k : ℚ) / 8 - restChunk ((k : ℚ) / 8) = ((k - 4 : ℕ) : ℚ) / 8 := by
            unfold restChunk
            rw [if_neg h1, if_pos h2, Nat.cast_sub hk4]
            ring
          rw [he]
          exact ih (k - 4) (by omega)
        · by_cases h3 : (1 : ℚ) / 4 ≤ (k : ℚ) / 8
          · have hk2 : 2 ≤ k := by
              have : (2 : ℚ) ≤ (k : ℚ) := by linarith
              exact_mod_cast this
            have he : (k : ℚ) / 8 - restChunk ((k : ℚ) / 8) = ((k - 2 : ℕ) : ℚ) / 8 := by
              unfold restChunk
              rw [if_neg h1, if_neg h2, if_pos h3, Nat.cast_sub hk2]
              ring
            rw [he]
            exact ih (k - 2) (by omega)
          · have he : (k : ℚ) / 8 - restChunk ((k : ℚ) / 8) = ((k - 1 : ℕ) : ℚ) / 8 := by
              unfold restChunk
              rw [if_neg h1, if_neg h2, if_neg h3, Nat.cast_sub hk]
              ring
            rw [he]
            exact ih (k - 1) (by omega)

/-- Per-note transformation of the repetition loop in `create_canon_voice`:
voice 2 is transposed down `canon_interval - 1` scale degrees, voice 3 down
`2 * (canon_interval - 1)`, any other voice keeps its pitch; every duration
is multiplied by the voice's prolation multiplier. -/
def prolate_transpose (scale : List ℕ) (voiceNumber : ℕ) (canonInterval : ℤ)
    (mult : ℚ) (n : VNote) : VNote :=
  let p :=
    if voiceNumber = 2 then
      transpose_pitch_by_scale_degrees scale n.pitch (canonInterval - 1)
    else if voiceNumber = 3 then
      transpose_pitch_by_scale_degrees scale n.pitch (2 * (canonInterval - 1))
    else n.pitch
  ⟨p, n.dur * mult⟩

/-- Total written duration of a note list (`sum(note.written_duration() ...)`). -/
def melodyDuration (notes : List VNote) : ℚ := (notes.map VNote.dur).sum

/-- Duration one full repetition pass adds when it is not cut short. -/
def passDuration (f : VNote → VNote) (notes : List VNote) : ℚ :=
  (notes.map fun n => (f n).dur).sum

/-- One pass of the `for note in melody_notes` loop in `create_canon_voice`:
appends transformed notes until `current_duration >= remaining` breaks the
pass, returning the appended notes and the updated `current_duration`. -/
def melodyPass (f : VNote → VNote) (remaining : ℚ) :
    List VNote → ℚ → List VNote × ℚ
  | [], cur => ([], cur)
  | n :: ns, cur =>
    if remaining ≤ cur then ([], cur)
    else
      let p := melodyPass f remaining ns (cur + (f n).dur)
      (f n :: p.1, p.2)

theorem melodyPass_snd (f : VNote → VNote) (remaining : ℚ) (ns : List VNote) :
    ∀ cur, (melodyPass f remaining ns cur).2 =
      cur + (((melodyPass f remaining ns cur).1).map VNote.dur).sum := by
  induction ns with
  | nil => intro cur; simp [melodyPass]
  | cons n ns ih =>
    intro cur
    by_cases h : remaining ≤ cur
    · simp [melodyPass, h]
    · simp only [melodyPass, if_neg h, List.map_cons, List.sum_cons]
      rw [ih (cur + (f n).dur)]
      ring

theorem melodyPass_full (f : VNote → VNote) (remaining : ℚ) (ns : List VNote) :
    ∀ cur, remaining ≤ (melodyPass f remaining ns cur).2 ∨
      (melodyPass f remaining ns cur).1 = ns.map f := by
  induction ns with
  | nil => intro cur; right; simp [melodyPass]
  | cons n ns ih =>
    intro cur
    by_cases h : remaining ≤ cur
    · left; simpa [melodyPass, h] using h
    · rcases ih (cur + (f n).dur) with hge | hfull
      · left; simpa [melodyPass, if_neg h] using hge
      · right; simp [melodyPass, if_neg h, hfull]

/-- The `while current_duration < remaining_duration` repetition loop of
`create_canon_voice`, emitting repetition passes of the (transformed)
melody until the accumulated duration reaches `remaining`.  The source
loops forever when one pass adds no positive duration (e.g. an empty
melody); the embedding's guard additionally requires a positive pass
duration so that it is total, and returns `[]` where the source diverges. -/
def melodyLoop (f : VNote → VNote) (notes : List VNote) (remaining : ℚ) (cur : ℚ) :
    List VNote :=
  if h : cur < remaining ∧ 0 < passDuration f notes then
    let p := melodyPass f remaining notes cur
    p.1 ++ melodyLoop f notes remaining p.2
  else []
termination_by (⌈(remaining - cur) / passDuration f notes⌉).toNat
decreasing_by
  obtain ⟨h1, h2⟩ := h
  rcases melodyPass_full f remaining notes cur with hge | hfull
  · have hnew : ⌈(remaining - (melodyPass f remaining notes cur).2) / passDuration f notes⌉ ≤ 0 := by
      apply Int.ceil_le.2
      push_cast
      exact div_nonpos_of_nonpos_of_nonneg (by linarith) (le_of_lt h2)
    have hold : 0 < ⌈(remaining - cur) / passDuration f notes⌉ :=
      Int.ceil_pos.2 (div_pos (by linarith) h2)
    omega
  · have hsnd := melodyPass_snd f remaining notes cur
    have hstep : (melodyPass f remaining notes cur).2 = cur + passDuration f notes := by
      rw [hsnd, hfull]
      unfold passDuration
      rw [List.map_map]
      rfl
    have hquot : (remaining - (melodyPass f remaining notes cur).2) / passDuration f notes =
        (remaining - cur) / passDuration f notes - 1 := by
      rw [hstep]
      field_simp
      ring
    have hnew : ⌈(remaining - (melodyPass f remaining notes cur).2) / passDuration f notes⌉ =
        ⌈(remaining - cur) / passDuration f notes⌉ - 1 := by
      rw [hquot, Int.ceil_sub_one]
    have hold : 0 < ⌈(remaining - cur) / passDuration f notes⌉ :=
      Int.ceil_pos.2 (div_pos (by linarith) h2)
    omega

theorem melodyLoop_sum (f : VNote → VNote) (notes : List VNote) (remaining : ℚ)
    (hD : 0 < passDuration f notes) (cur : ℚ) :
    remaining - cur ≤ (((melodyLoop f notes remaining cur)).map VNote.dur).sum := by
  refine melodyLoop.induct f notes remaining
    (fun c => remaining - c ≤ (((melodyLoop f notes remaining c)).map VNote.dur).sum)
    ?_ ?_ cur
  · intro c h p ih
    rw [melodyLoop]
    simp only [dif_pos h, List.map_append, List.sum_append]
    rw [show p = melodyPass f remaining notes c from rfl] at ih
    have hsnd := melodyPass_snd f remaining notes c
    linarith
  · intro c h
    rw [melodyLoop]
    simp only [dif_neg h, List.map_nil, List.sum_nil]
    rcases not_and_or.1 h with hc | hp
    · linarith [not_lt.1 hc]
    · exact absurd hD hp

/-- Rest prefix of `create_canon_voice` (`if entry_delay > 0` followed by
the greedy rest loop). -/
def restPart (entryDelay : ℚ) : List Leaf :=
  if 0 < entryDelay then ((restLoop entryDelay).1).map Leaf.rest else []

/-- The `total_duration_needed` computation of `create_canon_voice`. -/
def totalDurationNeeded (notes : List VNote) (entryDelay : ℚ) (voiceNumber : ℕ)
    (maxDelayUsed : Option ℚ) (prolation : ℚ) : ℚ :=
  match maxDelayUsed with
  | some maxd => maxd + melodyDuration notes * prolation ^ (voiceNumber - 1)
  | none => entryDelay + melodyDuration notes * prolation ^ (voiceNumber - 1)

/-- The repeated-melody part of `create_canon_voice`: the repetition loop
run against `remaining_duration = total_duration_needed - entry_delay`,
rendered as note leaves. -/
def melodyPortion (scale : List ℕ) (notes : List VNote) (entryDelay : ℚ)
    (voiceNumber : ℕ) (maxDelayUsed : Option ℚ) (canonInterval : ℤ)
    (prolation : ℚ) : List Leaf :=
  let mult := prolation ^ (voiceNumber - 1)
  let remaining :=
    totalDurationNeeded notes entryDelay voiceNumber maxDelayUsed prolation - entryDelay
  (melodyLoop (prolate_transpose scale voiceNumber canonInterval mult) notes remaining 0).map
    fun n => Leaf.note n.pitch n.dur

/-- Embedding of `CanonGenerator.create_canon_voice`: the entry-delay rest
prefix followed by the repeated, prolated, transposed melody.  (The final
`apply_meter_boundaries` re-notation pass is an engraving concern of the
external abjad collaborator and does not change the leaf durations'
total.) -/
def create_canon_voice (scale : List ℕ) (notes : List VNote) (entryDelay : ℚ)
    (voiceNumber : ℕ) (maxDelayUsed : Option ℚ) (canonInterval : ℤ)
    (prolation : ℚ) : List Leaf :=
  restPart entryDelay ++
    melodyPortion scale notes entryDelay voiceNumber maxDelayUsed canonInterval prolation

/-- Voice construction as invoked by the search: fresh copies of the
melody staff's note leaves fed into `create_canon_voice`. -/
def create_voice_from_staff (scale : List ℕ) (staff : List Leaf) (entryDelay : ℚ)
    (voiceNumber : ℕ) (maxDelayUsed : Option ℚ) (canonInterval : ℤ)
    (prolation : ℚ) : List Leaf :=
  create_canon_voice scale (copy_melody_notes staff) entryDelay voiceNumber
    maxDelayUsed canonInterval prolation

theorem extract_melody_notes_filter (staff : List Leaf) :
    extract_melody_notes (staff.filter Leaf.isNote) = extract_melody_notes staff := by
  induction staff with
  | nil => rfl
  | cons l ls ih =>
    cases l with
    | note p d =>
      simp only [extract_melody_notes, List.filter_cons, Leaf.isNote, if_pos,
        List.filterMap_cons] at *
      exact congrArg _ ih
    | rest d =>
      simpa only [extract_melody_notes, List.filter_cons, Leaf.isNote,
        List.filterMap_cons, Bool.false_eq_true, if_false] using ih

/-- C9: rests of the source melody are invisible to voice construction:
building a voice from the staff equals building it from the staff with all
rests removed, and every leaf of the built voice's melody portion is a
note. -/
theorem canon_voice_ignores_rests (scale : List ℕ) (staff : List Leaf)
    (entryDelay : ℚ) (voiceNumber : ℕ) (maxDelayUsed : Option ℚ)
    (canonInterval : ℤ) (prolation : ℚ) :
    create_voice_from_staff scale staff entryDelay voiceNumber maxDelayUsed
        canonInterval prolation =
      create_voice_from_staff scale (staff.filter Leaf.isNote) entryDelay
        voiceNumber maxDelayUsed canonInterval prolation ∧
    ∀ l ∈ melodyPortion scale (copy_melody_notes staff) entryDelay voiceNumber
        maxDelayUsed canonInterval prolation, l.isNote = true := by
  constructor
  · unfold create_voice_from_staff copy_melody_notes
    rw [extract_melody_notes_filter]
  · intro l hl
    unfold melodyPortion at hl
    simp only [List.mem_map] at hl
    obtain ⟨n, _, rfl⟩ := hl
    rfl

/-- Witness for C9 on a staff holding one note and one rest. -/
theorem canon_voice_ignores_rests_witness :
    create_voice_from_staff cMajorScale [Leaf.note ⟨0, 4⟩ (1/4), Leaf.rest (1/4)]
        0 1 (some 0) 1 1 =
      create_voice_from_staff cMajorScale
        (([Leaf.note ⟨0, 4⟩ (1/4), Leaf.rest (1/4)]).filter Leaf.isNote) 0 1 (some 0) 1 1 ∧
    ∀ l ∈ melodyPortion cMajorScale
        (copy_melody_notes [Leaf.note ⟨0, 4⟩ (1/4), Leaf.rest (1/4)]) 0 1 (some 0) 1 1,
      l.isNote = true :=
  canon_voice_ignores_rests cMajorScale [Leaf.note ⟨0, 4⟩ (1/4), Leaf.rest (1/4)]
    0 1 (some 0) 1 1

theorem restPart_map_dur (d : ℚ) :
    ((restPart d).map Leaf.dur) = if 0 < d then (restLoop d).1 else [] := by
  unfold restPart
  split_ifs with h
  · rw [List.map_map]
    simp only [Function.comp_def, Leaf.dur, List.map_id']
  · rfl

theorem restPart_sum_eighths (k : ℕ) :
    ((restPart ((k : ℚ) / 8)).map Leaf.dur).sum = (k : ℚ) / 8 := by
  rw [restPart_map_dur]
  split_ifs with h
  · rw [restLoop_sum, restLoop_eighths]
    ring
  · have : (k : ℚ) / 8 = 0 := le_antisymm (not_lt.1 h) (by positivity)
    rw [this]
    rfl

/-- C3 (amended): for every entry delay that is a non-negative multiple of
an eighth of a whole note (`k/8`, the coarsest chunk the greedy rest loop
emits), the rest prefix of a built voice sums exactly to the entry delay,
and — whenever one repetition pass of the melody has positive total
duration — the sum of all leaf durations of the voice is at least the
required span minus the entry delay. -/
theorem voice_duration_conservation (scale : List ℕ) (notes : List VNote) (k : ℕ)
    (voiceNumber : ℕ) (maxd : ℚ) (canonInterval : ℤ) (prolation : ℚ)
    (hD : 0 < passDuration
      (prolate_transpose scale voiceNumber canonInterval (prolation ^ (voiceNumber - 1)))
      notes) :
    ((restPart ((k : ℚ) / 8)).map Leaf.dur).sum = (k : ℚ) / 8 ∧
    totalDurationNeeded notes ((k : ℚ) / 8) voiceNumber (some maxd) prolation -
        (k : ℚ) / 8 ≤
      ((create_canon_voice scale notes ((k : ℚ) / 8) voiceNumber (some maxd)
          canonInterval prolation).map Leaf.dur).sum := by
  refine ⟨restPart_sum_eighths k, ?_⟩
  unfold create_canon_voice
  rw [List.map_append, List.sum_append]
  have hrest : 0 ≤ ((restPart ((k : ℚ) / 8)).map Leaf.dur).sum := by
    rw [restPart_sum_eighths]
    positivity
  have hmel : totalDurationNeeded notes ((k : ℚ) / 8) voiceNumber (some maxd) prolation -
      (k : ℚ) / 8 ≤
      ((melodyPortion scale notes ((k : ℚ) / 8) voiceNumber (some maxd) canonInterval
          prolation).map Leaf.dur).sum := by
    unfold melodyPortion
    rw [List.map_map]
    have hdur : ((fun n => Leaf.note n.pitch n.dur) · |>.dur) = VNote.dur := rfl
    have := melodyLoop_sum
      (prolate_transpose scale voiceNumber canonInterval (prolation ^ (voiceNumber - 1)))
      notes
      (totalDurationNeeded notes ((k : ℚ) / 8) voiceNumber (some maxd) prolation -
        (k : ℚ) / 8) hD 0
    simpa using this
  linarith

/-- Witness for the amended C3 at a one-note melody and entry delay 1/8. -/
theorem voice_duration_conservation_witness :
    0 < passDuration (prolate_transpose cMajorScale 1 1 ((1 : ℚ) ^ (1 - 1)))
        [⟨⟨0, 4⟩, 1/4⟩] ∧
    (((restPart (((1 : ℕ) : ℚ) / 8)).map Leaf.dur).sum = ((1 : ℕ) : ℚ) / 8 ∧
      totalDurationNeeded [⟨⟨0, 4⟩, 1/4⟩] (((1 : ℕ) : ℚ) / 8) 1 (some (1/8)) 1 -
          ((1 : ℕ) : ℚ) / 8 ≤
        ((create_canon_voice cMajorScale [⟨⟨0, 4⟩, 1/4⟩] (((1 : ℕ) : ℚ) / 8) 1
            (some (1/8)) 1 1).map Leaf.dur).sum) :=
  ⟨by norm_num [passDuration, prolate_transpose],
    voice_duration_conservation cMajorScale [⟨⟨0, 4⟩, 1/4⟩] 1 1 (1/8) 1 1
      (by norm_num [passDuration, prolate_transpose])⟩

theorem restLoop_sixteenth : restLoop (1/16) = ([1/8], -(1/16)) := by
  rw [restLoop]
  norm_num [restChunk]
  rw [restLoop]
  norm_num

/-- C3 counterexample: a voice built with entry delay 1/16 — a finite
binary fraction — gets a rest prefix of total duration 1/8, not 1/16: the
final `else` branch of the rest loop emits an `r8` even though less than an
eighth of delay remains. -/
theorem rest_prefix_inexact_counterexample :
    create_canon_voice cMajorScale [⟨⟨0, 4⟩, 1/4⟩] (1/16) 1 (some (1/16)) 1 1 =
      [Leaf.rest (1/8), Leaf.note ⟨0, 4⟩ (1/4)] ∧
    ((restPart (1/16)).map Leaf.dur).sum ≠ (1/16 : ℚ) := by
  have hrp : restPart (1/16) = [Leaf.rest (1/8)] := by
    unfold restPart
    rw [if_pos (by norm_num), restLoop_sixteenth]
    rfl
  have hpass : melodyPass (prolate_transpose cMajorScale 1 1 ((1 : ℚ) ^ (1 - 1))) (1/4)
      [⟨⟨0, 4⟩, 1/4⟩] 0 = ([⟨⟨0, 4⟩, 1/4⟩], 1/4) := by
    norm_num [melodyPass, prolate_transpose]
  have hml : melodyLoop (prolate_transpose cMajorScale 1 1 ((1 : ℚ) ^ (1 - 1)))
      [⟨⟨0, 4⟩, 1/4⟩] (1/4) 0 = [⟨⟨0, 4⟩, 1/4⟩] := by
    rw [melodyLoop]
    rw [dif_pos ⟨by norm_num, by norm_num [passDuration, prolate_transpose]⟩]
    dsimp only
    rw [hpass]
    rw [melodyLoop]
    rw [dif_neg (by norm_num)]
    simp
  constructor
  · unfold create_canon_voice melodyPortion
    rw [hrp]
    dsimp only
    have hR : totalDurationNeeded [⟨⟨0, 4⟩, 1/4⟩] (1/16) 1 (some (1/16)) 1 - 1/16 = 1/4 := by
      norm_num [totalDurationNeeded, melodyDuration]
    rw [hR, hml]
    rfl
  · rw [hrp]
    norm_num [Leaf.dur]

/-- C7 counterexample: at entry delay 1/16 the rest loop's final
subtraction drives `remaining_delay` to −1/16 < 0, and the loop returns
normally (emitting the oversized rest) instead of surfacing any
`NegativeDuration` violation: no error channel exists in this code path. -/
theorem negative_remaining_counterexample :
    (restLoop (1/16)).2 < 0 ∧ restLoop (1/16) = ([1/8], -(1/16)) := by
  rw [restLoop_sixteenth]
  norm_num

/-- C7 (amended): duration arithmetic in the rest loop does not reject
negative intermediate results: for every non-negative entry delay the loop
terminates normally with a final `remaining_delay` in the interval
(−1/8, 0], going strictly negative whenever the delay is not a multiple of
1/8, and no invariant violation is ever signalled. -/
theorem rest_loop_silent_negative (d : ℚ) (hd : 0 ≤ d) :
    (restLoop d).2 ≤ 0 ∧ -(1/8) < (restLoop d).2 :=
  restLoop_final d (by linarith)

/-- Witness for the amended C7 at delay 1/2. -/
theorem rest_loop_silent_negative_witness :
    (0 : ℚ) ≤ 1/2 ∧ ((restLoop (1/2)).2 ≤ 0 ∧ -(1/8) < (restLoop (1/2)).2) :=
  ⟨by norm_num, rest_loop_silent_negative (1/2) (by norm_num)⟩

/-- Scoring rubric (`Rubric.__init__`), with its Python float defaults as
exact rationals. -/
structure Rubric where
  strong_beat_consonance : ℚ := 5
  medium_beat_consonance : ℚ := 2
  weak_beat_consonance : ℚ := 1
  strong_beat_unison_penalty : ℚ := -2
  medium_beat_unison_penalty : ℚ := -1
  weak_beat_unison_penalty : ℚ := -(1/2)
  strong_beat_dissonance_penalty : ℚ := -1
  medium_beat_dissonance_penalty : ℚ := -(1/2)
  weak_beat_dissonance_penalty : ℚ := 0
  overall_consonance_bonus : ℚ := 10
deriving DecidableEq, Repr

/-- The rubric built by `Rubric()` with no arguments. -/
def default_rubric : Rubric := {}

/-- Python `Fraction % m` for a positive modulus `m`: the non-negative
remainder. -/
def qmod (a b : ℚ) : ℚ := a - b * ⌊a / b⌋

/-- Embedding of `Judge.get_beat_strength`: normalize the offset into the
measure, take the beat number (`int()` truncation coincides with `floor`
because the normalized position is non-negative) and index the beat
template cyclically.  (Python raises on an empty template; `getD` keeps the
embedding total there.) -/
def get_beat_strength (template : List Char) (num den : ℕ) (offset : ℚ) : Char :=
  let beatDuration : ℚ := 1 / den
  let positionInMeasure := qmod offset (num * beatDuration)
  let beatNumber := (⌊positionInMeasure / beatDuration⌋).toNat
  template.getD (beatNumber % template.length) 'w'

/-- The fixed semitone-class → interval-name table (`interval_map`). -/
def interval_name_map (s : ℕ) : String :=
  match s with
  | 0 => "P1"
  | 1 => "m2"
  | 2 => "M2"
  | 3 => "m3"
  | 4 => "M3"
  | 5 => "P4"
  | 6 => "TT"
  | 7 => "P5"
  | 8 => "m6"
  | 9 => "M6"
  | 10 => "m7"
  | 11 => "M7"
  | _ => "unknown"

/-- Embedding of `Judge.calculate_interval`.  The primary path calls the
external abjad library's `NamedInterval`; the embedded computation is the
method's library-independent fallback branch, the documented semitone
table over `abs(p1.number() - p2.number()) % 12`. -/
def calculate_interval (p1 p2 : NPitch) : String :=
  interval_name_map ((p1.number - p2.number).natAbs % 12)

/-- The interval-name → semitone-class table inside `is_consonant`. -/
def semitone_of_name (s : String) : Option ℕ :=
  match s with
  | "P1" => some 0
  | "m2" => some 1
  | "M2" => some 2
  | "m3" => some 3
  | "M3" => some 4
  | "P4" => some 5
  | "TT" => some 6
  | "P5" => some 7
  | "m6" => some 8
  | "M6" => some 9
  | "m7" => some 10
  | "M7" => some 11
  | _ => none

/-- `Judge.consonant_intervals`. -/
def consonant_intervals : List String := ["P1", "P8", "P5", "P4", "M3", "m3", "M6", "m6"]

/-- `Judge.consonant_interval_classes`. -/
def consonant_interval_classes : List ℕ := [0, 7, 5, 4, 3, 8, 9]

/-- Embedding of `Judge.is_consonant`. -/
def is_consonant (intervalName : String) : Bool :=
  if consonant_intervals.contains intervalName then true
  else
    match semitone_of_name intervalName with
    | some s => consonant_interval_classes.contains s
    | none => false

/-- Embedding of `Judge.is_unison` (`interval_name in ['P1', 'P8']`). -/
def is_unison (intervalName : String) : Bool :=
  intervalName == "P1" || intervalName == "P8"

/-- All pairs `(leaves[i], leaves[j])` with `i < j` where both leaves are
notes (`for i, leaf1 in enumerate(leaves): for leaf2 in leaves[i+1:]`
guarded by the two `isinstance(..., abjad.Note)` checks). -/
def notePairs : List Leaf → List (NPitch × NPitch)
  | [] => []
  | l :: ls =>
    (ls.filterMap fun l2 =>
      match l, l2 with
      | .note p1 _, .note p2 _ => some (p1, p2)
      | _, _ => none) ++ notePairs ls

/-- Per-moment interval counts accumulated by the pair loop of
`Judge.evaluate_score`. -/
structure MomentCounts where
  consonances : ℕ
  dissonances : ℕ
  unisons : ℕ
  pairs : ℕ
deriving DecidableEq, Repr

/-- The pair loop: each note pair counts once in `pairs` and once in
exactly one of `unisons` / `consonances` / `dissonances` (unison checked
first). -/
def countPairs (ps : List (NPitch × NPitch)) : MomentCounts :=
  ps.foldl
    (fun acc p =>
      let i := calculate_interval p.1 p.2
      if is_unison i then
        { acc with unisons := acc.unisons + 1, pairs := acc.pairs + 1 }
      else if is_consonant i then
        { acc with consonances := acc.consonances + 1, pairs := acc.pairs + 1 }
      else
        { acc with dissonances := acc.dissonances + 1, pairs := acc.pairs + 1 })
    ⟨0, 0, 0, 0⟩

/-- Accumulator of the moment loop of `Judge.evaluate_score`:
`total_score`, `moment_count`, `strong_beat_consonances`,
`strong_beat_moments`. -/
structure JudgeState where
  total : ℚ
  momentCount : ℕ
  strongBeatConsonances : ℕ
  strongBeatMoments : ℕ
deriving DecidableEq, Repr

/-- One iteration of the `for moment in iterate_vertical_moments` loop of
`Judge.evaluate_score`: moments with fewer than two leaves are skipped
entirely; all others bump `moment_count`; scoring and the strong-beat
accumulators only apply when the moment has at least one note pair. -/
def judgeStep (rubric : Rubric) (template : List Char) (num den : ℕ)
    (st : JudgeState) (m : ℚ × List Leaf) : JudgeState :=
  if m.2.length < 2 then st
  else
    let strength := get_beat_strength template num den m.1
    let c := countPairs (notePairs m.2)
    if 0 < c.pairs then
      let w :=
        if strength = 'S' then
          (rubric.strong_beat_consonance, rubric.strong_beat_dissonance_penalty,
            rubric.strong_beat_unison_penalty)
        else if strength = 'm' then
          (rubric.medium_beat_consonance, rubric.medium_beat_dissonance_penalty,
            rubric.medium_beat_unison_penalty)
        else
          (rubric.weak_beat_consonance, rubric.weak_beat_dissonance_penalty,
            rubric.weak_beat_unison_penalty)
      { total := st.total +
          ((c.consonances : ℚ) * w.1 + (c.dissonances : ℚ) * w.2.1 +
            (c.unisons : ℚ) * w.2.2),
        momentCount := st.momentCount + 1,
        strongBeatConsonances := st.strongBeatConsonances +
          (if strength = 'S' then c.consonances else 0),
        strongBeatMoments := st.strongBeatMoments +
          (if strength = 'S' then c.pairs else 0) }
    else { st with momentCount := st.momentCount + 1 }

/-- The `final_score` value `Judge.evaluate_score` computes at its last
executed line: the moment loop's total — with the strong-beat consonance
bonus already added to `total_score` — divided by `max(moment_count, 1)`. -/
def judge_final_score (rubric : Rubric) (template : List Char) (num den : ℕ)
    (moments : List (ℚ × List Leaf)) : ℚ :=
  let st := moments.foldl (judgeStep rubric template num den) ⟨0, 0, 0, 0⟩
  let totalWithBonus :=
    if 0 < st.strongBeatMoments then
      st.total + ((st.strongBeatConsonances : ℚ) / (st.strongBeatMoments : ℚ)) *
        rubric.overall_consonance_bonus
    else st.total
  totalWithBonus / ((max st.momentCount 1 : ℕ) : ℚ)

/-- Embedding of `Judge.evaluate_score` over the vertical moments of a
score (each moment: its offset plus the leaves sounding there, as the
external `abjad.iterate_vertical_moments` produces them).  The body
computes `final_score` — see `judge_final_score` — but the method ends
without a `return` statement (its `return final_score` line was displaced
into `_manual_meter_split` by a mangled edit), so the Python call always
returns `None`; correspondingly the embedding performs the computation and
returns `none`. -/
def evaluate_score (rubric : Rubric) (template : List Char) (num den : ℕ)
    (moments : List (ℚ × List Leaf)) : Option ℚ :=
  let _final_score := judge_final_score rubric template num den moments
  none

/-- C1: `Judge.evaluate_score` never returns the fitness score its body
computes: control falls off the end of the method, so every evaluation
yields an absent result (`None`) instead of a float, contradicting the
method's own docstring (`Returns: Float score`). -/
theorem evaluate_score_returns_none (rubric : Rubric) (template : List Char)
    (num den : ℕ) (moments : List (ℚ × List Leaf)) :
    evaluate_score rubric template num den moments = none := rfl

/-- Closed-form per-moment score: what one moment contributes to
`total_score` in `Judge.evaluate_score`. -/
def momentScore (rubric : Rubric) (template : List Char) (num den : ℕ)
    (m : ℚ × List Leaf) : ℚ :=
  if m.2.length < 2 then 0
  else
    let strength := get_beat_strength template num den m.1
    let c := countPairs (notePairs m.2)
    if 0 < c.pairs then
      let w :=
        if strength = 'S' then
          (rubric.strong_beat_consonance, rubric.strong_beat_dissonance_penalty,
            rubric.strong_beat_unison_penalty)
        else if strength = 'm' then
          (rubric.medium_beat_consonance, rubric.medium_beat_dissonance_penalty,
            rubric.medium_beat_unison_penalty)
        else
          (rubric.weak_beat_consonance, rubric.weak_beat_dissonance_penalty,
            rubric.weak_beat_unison_penalty)
      (c.consonances : ℚ) * w.1 + (c.dissonances : ℚ) * w.2.1 + (c.unisons : ℚ) * w.2.2
    else 0

/-- Closed-form contribution of one moment to `strong_beat_consonances`. -/
def strongConsCount (template : List Char) (num den : ℕ) (m : ℚ × List Leaf) : ℕ :=
  if m.2.length < 2 then 0
  else
    let strength := get_beat_strength template num den m.1
    let c := countPairs (notePairs m.2)
    if 0 < c.pairs then (if strength = 'S' then c.consonances else 0) else 0

/-- Closed-form contribution of one moment to `strong_beat_moments`. -/
def strongPairsCount (template : List Char) (num den : ℕ) (m : ℚ × List Leaf) : ℕ :=
  if m.2.length < 2 then 0
  else
    let strength := get_beat_strength template num den m.1
    let c := countPairs (notePairs m.2)
    if 0 < c.pairs then (if strength = 'S' then c.pairs else 0) else 0

/-- Number of moments that bump `moment_count`: those with at least two
leaves (notes or rests alike). -/
def scoringMomentCount (moments : List (ℚ × List Leaf)) : ℕ :=
  (moments.filter fun m => decide (2 ≤ m.2.length)).length

/-- The final-score formula exactly as claim C2 words it: per-moment scores
summed and divided by `max(1, moments with at least 2 sounding notes)`,
with the strong-beat consonance bonus added after that normalization.
Stated only for comparison against the source-derived
`judge_final_score`. -/
def judge_final_score_claimed (rubric : Rubric) (template : List Char) (num den : ℕ)
    (moments : List (ℚ × List Leaf)) : ℚ :=
  (moments.map (momentScore rubric template num den)).sum /
      ((max 1 ((moments.filter fun m =>
        decide (2 ≤ (m.2.filter Leaf.isNote).length)).length) : ℕ) : ℚ) +
    ((moments.map (strongConsCount template num den)).sum : ℚ) /
        ((max 1 ((moments.map (strongPairsCount template num den)).sum) : ℕ) : ℚ) *
      rubric.overall_consonance_bonus

/-- Closed form of what the source actually computes: the bonus is added to
the running total before the division, and the denominator counts the
moments with at least two leaves. -/
def judge_final_score_amended (rubric : Rubric) (template : List Char) (num den : ℕ)
    (moments : List (ℚ × List Leaf)) : ℚ :=
  let s := (moments.map (momentScore rubric template num den)).sum
  let sc := (moments.map (strongConsCount template num den)).sum
  let sp := (moments.map (strongPairsCount template num den)).sum
  (s + (if 0 < sp then (sc : ℚ) / (sp : ℚ) * rubric.overall_consonance_bonus else 0)) /
    ((max (scoringMomentCount moments) 1 : ℕ) : ℚ)

theorem judgeStep_decompose (rubric : Rubric) (template : List Char) (num den : ℕ)
    (st : JudgeState) (m : ℚ × List Leaf) :
    judgeStep rubric template num den st m =
      ⟨st.total + momentScore rubric template num den m,
       st.momentCount + (if 2 ≤ m.2.length then 1 else 0),
       st.strongBeatConsonances + strongConsCount template num den m,
       st.strongBeatMoments + strongPairsCount template num den m⟩ := by
  unfold judgeStep momentScore strongConsCount strongPairsCount
  by_cases h1 : m.2.length < 2
  · simp only [if_pos h1, if_neg (show ¬ 2 ≤ m.2.length by omega)]
    rcases st with ⟨t, mc, sc, sp⟩
    simp
  · simp only [if_neg h1, if_pos (show 2 ≤ m.2.length by omega)]
    by_cases h2 : 0 < (countPairs (notePairs m.2)).pairs
    · simp only [if_pos h2]
    · simp only [if_neg h2]
      rcases st with ⟨t, mc, sc, sp⟩
      simp

theorem scoringMomentCount_cons (m : ℚ × List Leaf) (ms : List (ℚ × List Leaf)) :
    scoringMomentCount (m :: ms) =
      (if 2 ≤ m.2.length then 1 else 0) + scoringMomentCount ms := by
  unfold scoringMomentCount
  rw [List.filter_cons]
  by_cases h : 2 ≤ m.2.length
  · rw [if_pos (decide_eq_true h), if_pos h, List.length_cons]
    omega
  · rw [if_neg (by simpa using h), if_neg h]
    omega

theorem judge_fold (rubric : Rubric) (template : List Char) (num den : ℕ)
    (moments : List (ℚ × List Leaf)) :
    ∀ st : JudgeState,
      moments.foldl (judgeStep rubric template num den) st =
        ⟨st.total + (moments.map (momentScore rubric template num den)).sum,
         st.momentCount + scoringMomentCount moments,
         st.strongBeatConsonances + (moments.map (strongConsCount template num den)).sum,
         st.strongBeatMoments + (moments.map (strongPairsCount template num den)).sum⟩ := by
  induction moments with
  | nil =>
    intro st
    rcases st with ⟨t, mc, sc, sp⟩
    simp [scoringMomentCount]
  | cons m ms ih =>
    intro st
    rw [List.foldl_cons, judgeStep_decompose, ih, scoringMomentCount_cons]
    simp only [List.map_cons, List.sum_cons, JudgeState.mk.injEq]
    refine ⟨by ring, by omega, by omega, by omega⟩

/-- C2 (amended): the Judge's final score equals the sum of per-moment
scores plus the strong-beat bonus term, together divided by
`max(1, number of moments with at least two leaves)` — the bonus is added
to the running total before the per-moment normalization, and the
denominator also counts moments whose two leaves include rests. -/
theorem judge_bonus_before_normalization (rubric : Rubric) (template : List Char)
    (num den : ℕ) (moments : List (ℚ × List Leaf)) :
    judge_final_score rubric template num den moments =
      judge_final_score_amended rubric template num den moments := by
  unfold judge_final_score judge_final_score_amended
  rw [judge_fold]
  dsimp only
  simp only [zero_add, max_comm]
  split_ifs with h <;> ring

/-- Two vertical moments, each holding C4 and G4 (a perfect fifth) on a
strong beat of 4/4. -/
def exampleMoments : List (ℚ × List Leaf) :=
  [(0, [Leaf.note ⟨0, 4⟩ (1/4), Leaf.note ⟨7, 4⟩ (1/4)]),
   (1, [Leaf.note ⟨0, 4⟩ (1/4), Leaf.note ⟨7, 4⟩ (1/4)])]

/-- C2 counterexample: on two strong-beat perfect-fifth moments with the
default rubric, the source computes (10 + 10)/2 = 10, while the claimed
add-the-bonus-after-normalizing formula gives 10/2 + 10 = 15. -/
theorem exampleStrength0 :
    get_beat_strength ['S', 'w', 'm', 'w'] 4 4 0 = 'S' := by
  unfold get_beat_strength qmod
  norm_num

theorem exampleStrength1 :
    get_beat_strength ['S', 'w', 'm', 'w'] 4 4 1 = 'S' := by
  unfold get_beat_strength qmod
  norm_num

theorem exampleCounts :
    countPairs (notePairs [Leaf.note ⟨0, 4⟩ (1/4), Leaf.note ⟨7, 4⟩ (1/4)]) =
      ⟨1, 0, 0, 1⟩ := by decide

theorem exampleMomentScore0 :
    momentScore default_rubric ['S', 'w', 'm', 'w'] 4 4
      ((0 : ℚ), [Leaf.note ⟨0, 4⟩ (1/4), Leaf.note ⟨7, 4⟩ (1/4)]) = 5 := by
  unfold momentScore
  norm_num [exampleStrength0, exampleCounts, default_rubric]

theorem exampleMomentScore1 :
    momentScore default_rubric ['S', 'w', 'm', 'w'] 4 4
      ((1 : ℚ), [Leaf.note ⟨0, 4⟩ (1/4), Leaf.note ⟨7, 4⟩ (1/4)]) = 5 := by
  unfold momentScore
  norm_num [exampleStrength1, exampleCounts, default_rubric]

theorem exampleStrongCons0 :
    strongConsCount ['S', 'w', 'm', 'w'] 4 4
      ((0 : ℚ), [Leaf.note ⟨0, 4⟩ (1/4), Leaf.note ⟨7, 4⟩ (1/4)]) = 1 := by
  unfold strongConsCount
  norm_num [exampleStrength0, exampleCounts]

theorem exampleStrongCons1 :
    strongConsCount ['S', 'w', 'm', 'w'] 4 4
      ((1 : ℚ), [Leaf.note ⟨0, 4⟩ (1/4), Leaf.note ⟨7, 4⟩ (1/4)]) = 1 := by
  unfold strongConsCount
  norm_num [exampleStrength1, exampleCounts]

theorem exampleStrongPairs0 :
    strongPairsCount ['S', 'w', 'm', 'w'] 4 4
      ((0 : ℚ), [Leaf.note ⟨0, 4⟩ (1/4), Leaf.note ⟨7, 4⟩ (1/4)]) = 1 := by
  unfold strongPairsCount
  norm_num [exampleStrength0, exampleCounts]

theorem exampleStrongPairs1 :
    strongPairsCount ['S', 'w', 'm', 'w'] 4 4
      ((1 : ℚ), [Leaf.note ⟨0, 4⟩ (1/4), Leaf.note ⟨7, 4⟩ (1/4)]) = 1 := by
  unfold strongPairsCount
  norm_num [exampleStrength1, exampleCounts]

theorem exampleScoringCount : scoringMomentCount exampleMoments = 2 := by decide

theorem exampleSoundingCount :
    (exampleMoments.filter fun m =>
      decide (2 ≤ (m.2.filter Leaf.isNote).length)).length = 2 := by decide

/-- C2 counterexample: on two strong-beat perfect-fifth moments with the
default rubric, the source computes (10 + 10)/2 = 10, while the claimed
add-the-bonus-after-normalizing formula gives 10/2 + 10 = 15. -/
theorem judge_bonus_order_counterexample :
    judge_final_score default_rubric ['S', 'w', 'm', 'w'] 4 4 exampleMoments = 10 ∧
    judge_final_score_claimed default_rubric ['S', 'w', 'm', 'w'] 4 4 exampleMoments = 15 ∧
    (10 : ℚ) ≠ 15 := by
  refine ⟨?_, ?_, by norm_num⟩
  · unfold judge_final_score
    rw [judge_fold]
    rw [exampleScoringCount]
    unfold exampleMoments
    simp only [List.map_cons, List.map_nil, List.sum_cons, List.sum_nil,
      exampleMomentScore0, exampleMomentScore1, exampleStrongCons0, exampleStrongCons1,
      exampleStrongPairs0, exampleStrongPairs1]
    norm_num [default_rubric]
  · unfold judge_final_score_claimed
    rw [exampleSoundingCount]
    unfold exampleMoments
    simp only [List.map_cons, List.map_nil, List.sum_cons, List.sum_nil,
      exampleMomentScore0, exampleMomentScore1, exampleStrongCons0, exampleStrongCons1,
      exampleStrongPairs0, exampleStrongPairs1]
    norm_num [default_rubric]

/-- C8 counterexample: for the unrecognized mode string "lydian" scale
construction falls back to the major scale, but the warning-level output
trace is empty — the fallback is silent, not observable as the claim
requires. -/
theorem mode_fallback_unobservable_counterexample :
    ("lydian" ≠ "major" ∧ "lydian" ≠ "minor") ∧
    get_scale_pitches 0 "lydian" = ([0, 2, 4, 5, 7, 9, 11], []) := by
  exact ⟨⟨by decide, by decide⟩, by decide⟩

/-- C8 (amended): an unrecognized mode string is not fatal — scale
construction falls back to the 7-element major scale built from the
semitone pattern over the given tonic — but the fallback is silent: the
source emits no warning-level signal there. -/
theorem mode_fallback_silent (tonicNumber : ℕ) (mode : String)
    (h1 : mode ≠ "major") (h2 : mode ≠ "minor") :
    (get_scale_pitches tonicNumber mode).1 =
      scale_pattern_major.map (fun i => (tonicNumber + i) % 12) ∧
    (get_scale_pitches tonicNumber mode).1.length = 7 ∧
    (get_scale_pitches tonicNumber mode).2 = [] := by
  unfold get_scale_pitches
  rw [if_neg h1, if_neg h2]
  exact ⟨rfl, by simp [scale_pattern_major], rfl⟩

/-- Witness for the amended C8 at tonic F (5) and mode "dorian". -/
theorem mode_fallback_silent_witness :
    ("dorian" ≠ "major" ∧ "dorian" ≠ "minor") ∧
    ((get_scale_pitches 5 "dorian").1 =
        scale_pattern_major.map (fun i => (5 + i) % 12) ∧
      (get_scale_pitches 5 "dorian").1.length = 7 ∧
      (get_scale_pitches 5 "dorian").2 = []) :=
  ⟨⟨by decide, by decide⟩, mode_fallback_silent 5 "dorian" (by decide) (by decide)⟩

/-- A search configuration of `find_optimal_canon`: (prolation, canon
interval, voice-2 entry delay, voice-3 entry delay). -/
abbrev SearchConfig := ℕ × ℕ × ℚ × ℚ

/-- The delay pairs of `itertools.product(possible_delays, repeat=2)` in
order, with identical pairs skipped (`if delay2 == delay3: continue`). -/
def delayPairs (delays : List ℚ) : List (ℚ × ℚ) :=
  delays.flatMap fun d2 =>
    delays.filterMap fun d3 => if d2 = d3 then none else some (d2, d3)

/-- The canonical enumeration order of `find_optimal_canon`: prolations
outermost, then canon intervals, then delay pairs. -/
def enumConfigs (prolations intervals : List ℕ) (delays : List ℚ) :
    List SearchConfig :=
  prolations.flatMap fun p =>
    intervals.flatMap fun i =>
      (delayPairs delays).map fun dd => (p, i, dd.1, dd.2)

/-- The best-so-far update of `find_optimal_canon`: `best_score` starts at
negative infinity and `if score > best_score:` replaces the best, so the
first configuration always installs itself and a later one only wins under
a strictly greater score; an `Option` plays the (−∞, `None`) initial
state. -/
def searchStep (score : SearchConfig → ℚ) (best : Option (SearchConfig × ℚ))
    (c : SearchConfig) : Option (SearchConfig × ℚ) :=
  match best with
  | none => some (c, score c)
  | some b => if b.2 < score c then some (c, score c) else some b

/-- The search loop of `find_optimal_canon` over the enumeration,
returning the best configuration (`None` when the enumeration is empty),
parameterized by the score each configuration evaluates to. -/
def find_optimal_configuration (score : SearchConfig → ℚ)
    (prolations intervals : List ℕ) (delays : List ℚ) : Option SearchConfig :=
  ((enumConfigs prolations intervals delays).foldl (searchStep score) none).map Prod.fst

theorem searchFold_keep (score : SearchConfig → ℚ) (b : SearchConfig × ℚ)
    (l : List SearchConfig) (hb : ∀ c ∈ l, score c ≤ b.2) :
    l.foldl (searchStep score) (some b) = some b := by
  induction l with
  | nil => rfl
  | cons c cs ih =>
    rw [List.foldl_cons]
    have hstep : searchStep score (some b) c = some b := by
      show (if b.2 < score c then some (c, score c) else some b) = some b
      rw [if_neg (not_lt.2 (hb c (List.mem_cons_self c cs)))]
    rw [hstep]
    exact ih fun x hx => hb x (List.mem_cons_of_mem c hx)

theorem searchFold_below (score : SearchConfig → ℚ) (s : ℚ) (l : List SearchConfig)
    (hl : ∀ c ∈ l, score c < s) :
    ∀ acc, (acc = none ∨ ∃ x, acc = some (x, score x) ∧ score x < s) →
      (l.foldl (searchStep score) acc = none ∨
        ∃ x, l.foldl (searchStep score) acc = some (x, score x) ∧ score x < s) := by
  induction l with
  | nil => intro acc hacc; exact hacc
  | cons c cs ih =>
    intro acc hacc
    rw [List.foldl_cons]
    have hc : score c < s := hl c (List.mem_cons_self c cs)
    have htail : ∀ x ∈ cs, score x < s := fun x hx => hl x (List.mem_cons_of_mem c hx)
    rcases hacc with rfl | ⟨x, rfl, hx⟩
    · exact ih htail _ (Or.inr ⟨c, rfl, hc⟩)
    · have hstep : searchStep score (some (x, score x)) c =
          if score x < score c then some (c, score c) else some (x, score x) := rfl
      rw [hstep]
      split_ifs with hcmp
      · exact ih htail _ (Or.inr ⟨c, rfl, hc⟩)
      · exact ih htail _ (Or.inr ⟨x, rfl, hx⟩)

/-- C4: the search keeps the earliest-enumerated configuration on ties.
If the canonical enumeration splits as `l1 ++ c1 :: l2` with every earlier
configuration scoring strictly below `c1` and every later one at most
`c1`'s score — in particular a `c2` later in the enumeration whose score
equals `c1`'s — then the search returns `c1`: the best-so-far is replaced
only under strictly greater score, never on a tie. -/
theorem search_tie_break (score : SearchConfig → ℚ) (prolations intervals : List ℕ)
    (delays : List ℚ) (l1 l2 : List SearchConfig) (c1 c2 : SearchConfig)
    (hsplit : enumConfigs prolations intervals delays = l1 ++ c1 :: l2)
    (h1 : ∀ c ∈ l1, score c < score c1)
    (h2 : ∀ c ∈ l2, score c ≤ score c1)
    (hc2 : c2 ∈ l2) (heq : score c2 = score c1) :
    find_optimal_configuration score prolations intervals delays = some c1 := by
  unfold find_optimal_configuration
  rw [hsplit, List.foldl_append, List.foldl_cons]
  rcases searchFold_below score (score c1) l1 h1 none (Or.inl rfl) with hnone | ⟨x, hx, hlt⟩
  · rw [hnone]
    rw [show searchStep score none c1 = some (c1, score c1) from rfl]
    rw [searchFold_keep score (c1, score c1) l2 h2]
    rfl
  · rw [hx]
    have hrepl : searchStep score (some (x, score x)) c1 = some (c1, score c1) := by
      show (if score x < score c1 then some (c1, score c1) else some (x, score x)) =
        some (c1, score c1)
      rw [if_pos hlt]
    rw [hrepl, searchFold_keep score (c1, score c1) l2 h2]
    rfl

/-- Witness for C4: an all-tied constant score over a small enumeration;
the search returns the first-enumerated configuration. -/
theorem search_tie_break_witness :
    enumConfigs [1] [1, 2] [0, 1] =
      [] ++ ((1 : ℕ), (1 : ℕ), (0 : ℚ), (1 : ℚ)) ::
        [(1, 1, 1, 0), (1, 2, 0, 1), (1, 2, 1, 0)] ∧
    ((1 : ℕ), (1 : ℕ), (1 : ℚ), (0 : ℚ)) ∈
      ([(1, 1, 1, 0), (1, 2, 0, 1), (1, 2, 1, 0)] : List SearchConfig) ∧
    find_optimal_configuration (fun _ => 0) [1] [1, 2] [0, 1] = some (1, 1, 0, 1) := by
  have hsplit : enumConfigs [1] [1, 2] [0, 1] =
      [] ++ ((1 : ℕ), (1 : ℕ), (0 : ℚ), (1 : ℚ)) ::
        [(1, 1, 1, 0), (1, 2, 0, 1), (1, 2, 1, 0)] := by
    norm_num [enumConfigs, delayPairs, List.filterMap_cons, List.filterMap_nil]
  have hmem : ((1 : ℕ), (1 : ℕ), (1 : ℚ), (0 : ℚ)) ∈
      ([(1, 1, 1, 0), (1, 2, 0, 1), (1, 2, 1, 0)] : List SearchConfig) :=
    List.mem_cons_self _ _
  exact ⟨hsplit, hmem,
    search_tie_break (fun _ => 0) [1] [1, 2] [0, 1] []
      [(1, 1, 1, 0), (1, 2, 0, 1), (1, 2, 1, 0)] (1, 1, 0, 1) (1, 1, 1, 0)
      hsplit (by simp) (fun c _ => le_rfl) hmem rfl⟩

/-- One stepping loop of `generate_entry_delays`: collect
`current_delay = cur, cur + step, ...` while at most `maxDelay`.  The
source's loops always step by a positive amount; positivity is added to the
guard so the embedding is total (the source would loop forever on a
non-positive step). -/
def gridLoop (step maxDelay : ℚ) (cur : ℚ) : List ℚ :=
  if h : 0 < step ∧ cur ≤ maxDelay then
    cur :: gridLoop step maxDelay (cur + step)
  else []
termination_by (⌈(maxDelay - cur) / step⌉ + 1).toNat
decreasing_by
  obtain ⟨h1, h2⟩ := h
  have hquot : (maxDelay - (cur + step)) / step = (maxDelay - cur) / step - 1 := by
    field_simp
    ring
  have hnew : ⌈(maxDelay - (cur + step)) / step⌉ = ⌈(maxDelay - cur) / step⌉ - 1 := by
    rw [hquot, Int.ceil_sub_one]
  have hold : (0 : ℤ) ≤ ⌈(maxDelay - cur) / step⌉ :=
    Int.ceil_nonneg (div_nonneg (by linarith) (le_of_lt h1))
  omega

/-- The `strong_beat` branch of `generate_entry_delays`: step by the beat
duration but keep only offsets whose beat strength is 'S'. -/
def strongBeatLoop (template : List Char) (num den : ℕ) (step maxDelay : ℚ)
    (cur : ℚ) : List ℚ :=
  if h : 0 < step ∧ cur ≤ maxDelay then
    (if get_beat_strength template num den cur = 'S' then [cur] else []) ++
      strongBeatLoop template num den step maxDelay (cur + step)
  else []
termination_by (⌈(maxDelay - cur) / step⌉ + 1).toNat
decreasing_by
  obtain ⟨h1, h2⟩ := h
  have hquot : (maxDelay - (cur + step)) / step = (maxDelay - cur) / step - 1 := by
    field_simp
    ring
  have hnew : ⌈(maxDelay - (cur + step)) / step⌉ = ⌈(maxDelay - cur) / step⌉ - 1 := by
    rw [hquot, Int.ceil_sub_one]
  have hold : (0 : ℤ) ≤ ⌈(maxDelay - cur) / step⌉ :=
    Int.ceil_nonneg (div_nonneg (by linarith) (le_of_lt h1))
  omega

/-- Embedding of `CanonGenerator.generate_entry_delays`:
`beat_duration = Fraction(1, denominator)`,
`max_delay_duration = max_entry_delay * numerator * beat_duration`, and one
grid per recognized `entry_resolution`; any other string falls through to
the per-beat default branch. -/
def generate_entry_delays (template : List Char) (num den maxEntryDelayMeasures : ℕ)
    (entryResolution : String) : List ℚ :=
  let beatDuration : ℚ := 1 / den
  let maxDelayDuration : ℚ := maxEntryDelayMeasures * num * beatDuration
  if entryResolution = "downbeat" then
    gridLoop (num * beatDuration) maxDelayDuration 0
  else if entryResolution = "strong_beat" then
    strongBeatLoop template num den beatDuration maxDelayDuration 0
  else if entryResolution = "beat" then
    gridLoop beatDuration maxDelayDuration 0
  else if entryResolution = "half_beat" then
    gridLoop (beatDuration / 2) maxDelayDuration 0
  else if entryResolution = "quarter_beat" then
    gridLoop (beatDuration / 4) maxDelayDuration 0
  else
    gridLoop beatDuration maxDelayDuration 0

theorem gridLoop_closed (step : ℚ) (hstep : 0 < step) (k : ℕ) :
    ∀ cur : ℚ, gridLoop step (cur + k * step) cur =
      (List.range (k + 1)).map fun m : ℕ => cur + (m : ℚ) * step := by
  induction k with
  | zero =>
    intro cur
    rw [gridLoop, dif_pos ⟨hstep, by norm_num⟩]
    rw [gridLoop, dif_neg (by push_cast; intro hh; linarith [hh.2])]
    simp [List.range_succ]
  | succ k ih =>
    intro cur
    have hk : (0 : ℚ) ≤ ((k : ℚ) + 1) * step := by positivity
    rw [gridLoop, dif_pos ⟨hstep, by push_cast; linarith⟩]
    have harg : cur + ((k + 1 : ℕ) : ℚ) * step = (cur + step) + ((k : ℕ) : ℚ) * step := by
      push_cast
      ring
    rw [harg, ih (cur + step)]
    conv_rhs => rw [List.range_succ_eq_map, List.map_cons, List.map_map]
    congr 1
    · simp
    · refine List.map_congr_left fun m _ => ?_
      simp only [Function.comp_apply]
      push_cast
      ring

/-- C10: for every `entry_resolution` string other than the five
recognized values, entry-delay generation falls through to the per-beat
grid: every multiple of the beat duration from 0 up to and including
`maxDelayMeasures` times the measure duration, in particular a non-empty
list. -/
theorem entry_delays_unknown_resolution (template : List Char)
    (num den maxM : ℕ) (entryResolution : String) (hden : 1 ≤ den)
    (h1 : entryResolution ≠ "beat") (h2 : entryResolution ≠ "downbeat")
    (h3 : entryResolution ≠ "strong_beat") (h4 : entryResolution ≠ "half_beat")
    (h5 : entryResolution ≠ "quarter_beat") :
    generate_entry_delays template num den maxM entryResolution =
      (List.range (maxM * num + 1)).map (fun m : ℕ => (m : ℚ) * (1 / (den : ℚ))) ∧
    generate_entry_delays template num den maxM entryResolution ≠ [] := by
  have hstep : 0 < (1 : ℚ) / (den : ℚ) := by
    have hd : (0 : ℚ) < (den : ℚ) := by exact_mod_cast hden
    positivity
  have hgrid : generate_entry_delays template num den maxM entryResolution =
      (List.range (maxM * num + 1)).map (fun m : ℕ => (m : ℚ) * (1 / (den : ℚ))) := by
    unfold generate_entry_delays
    rw [if_neg h2, if_neg h3, if_neg h1, if_neg h4, if_neg h5]
    have hmax : (maxM : ℚ) * (num : ℚ) * ((1 : ℚ) / (den : ℚ)) =
        0 + ((maxM * num : ℕ) : ℚ) * ((1 : ℚ) / (den : ℚ)) := by
      push_cast
      ring
    rw [hmax, gridLoop_closed _ hstep (maxM * num) 0]
    refine List.map_congr_left fun m _ => ?_
    ring
  refine ⟨hgrid, ?_⟩
  rw [hgrid]
  simp

/-- Witness for C10 at the unrecognized resolution "sixteenth" in 4/4 with
one measure of maximum delay. -/
theorem entry_delays_unknown_resolution_witness :
    ((1 : ℕ) ≤ 4 ∧ "sixteenth" ≠ "beat" ∧ "sixteenth" ≠ "downbeat" ∧
      "sixteenth" ≠ "strong_beat" ∧ "sixteenth" ≠ "half_beat" ∧
      "sixteenth" ≠ "quarter_beat") ∧
    (generate_entry_delays ['S', 'w', 'm', 'w'] 4 4 1 "sixteenth" =
        (List.range (1 * 4 + 1)).map (fun m : ℕ => (m : ℚ) * (1 / ((4 : ℕ) : ℚ))) ∧
      generate_entry_delays ['S', 'w', 'm', 'w'] 4 4 1 "sixteenth" ≠ []) :=
  ⟨⟨by norm_num, by decide, by decide, by decide, by decide, by decide⟩,
    entry_delays_unknown_resolution ['S', 'w', 'm', 'w'] 4 4 1 "sixteenth"
      (by norm_num) (by decide) (by decide) (by decide) (by decide) (by decide)⟩

end Canons
